import Mathlib

/-!
Shallow embedding of `io.h`: a fixed-capacity circular byte buffer
(`IO_Buffer`) and a buffered reader (`IO_Reader`) on top of a blocking byte
source.

Modelling conventions:
* C pointers `b->start` / `b->end` are stored as the offsets
  `start - buf` / `end - buf` into the physical region; the physical region
  itself is a `List Nat` of length `cap + 1`.
* `memcpy` out of the buffer is `readPhys`, `memcpy` into the buffer is
  `writePhys`; both act on consecutive physical offsets without wrapping,
  exactly as `memcpy` does.
* A destination pointer that may be `NULL` is modelled by a `Bool`
  ("is the pointer non-null"); the bytes the C code would have written
  through the pointer are returned as a list.
* The file descriptor is replaced by an explicit `Source`: the list of
  responses that successive `IO_READ` calls will return.  A negative return
  of `read` is `SrcResp.fail`, a successful return of `k` bytes is
  `SrcResp.bytes`; an exhausted response list yields 0 bytes (end of file).
* Functions that mutate through a pointer return the updated value
  explicitly; functions that never write to a struct (such as
  `io_buffer_nspit`, which only reads the buffer) return no updated copy,
  mirroring the absence of any store to the struct in the C code.
-/

/-- Error codes of `io.h` (the `IO_Err` enum). -/
inductive IO_Err where
  | ok
  | oom
  | oob
  | eof
  | inv_ptr
  | failed_read
deriving DecidableEq

/-- `IO_Buffer`: physical storage `buf` (allocated with `cap + 1` bytes) and
the `start`/`end` offsets into it.  The C field `end` is called `end_` here
because `end` is a keyword. -/
structure IO_Buffer where
  buf : List Nat
  start : Nat
  end_ : Nat
  cap : Nat
deriving DecidableEq

/-- `_io_buffer_size`: physical size of the buffer. -/
def _io_buffer_size (b : IO_Buffer) : Nat :=
  b.cap + 1

/-- `io_buffer_len`: logical length of the buffered data. -/
def io_buffer_len (b : IO_Buffer) : Nat :=
  if b.end_ ≥ b.start then b.end_ - b.start
  else _io_buffer_size b - b.start + b.end_

/-- `io_buffer_reset`: sets `start = end`.  The C function always returns
`IO_ERR_OK`, so only the updated buffer is modelled. -/
def io_buffer_reset (b : IO_Buffer) : IO_Buffer :=
  { b with start := b.end_ }

/-- `_io_buffer_left_until_wrap`: bytes between the later of `start`/`end`
and the physical end of the region. -/
def _io_buffer_left_until_wrap (b : IO_Buffer) : Nat :=
  if b.end_ ≥ b.start then _io_buffer_size b - b.end_
  else _io_buffer_size b - b.start

/-- `memcpy(dest, buf + off, n)` reading out of the physical region:
the `n` bytes at consecutive physical offsets `off, off+1, ...`. -/
def readPhys (l : List Nat) (off n : Nat) : List Nat :=
  (List.range n).map (fun i => l.getD (off + i) 0)

/-- `memcpy(buf + off, src, n)` writing into the physical region:
stores the bytes `xs` at consecutive physical offsets starting at `off`. -/
def writePhys : List Nat → Nat → List Nat → List Nat
  | l, _, [] => l
  | l, off, x :: xs => writePhys (l.set off x) (off + 1) xs

/-- `io_buffer_nadvance`: moves `start` forward by `min n len` positions
modulo the physical size; returns the shift together with the updated
buffer. -/
def io_buffer_nadvance (b : IO_Buffer) (n : Nat) : Nat × IO_Buffer :=
  let len := io_buffer_len b
  let to_shift := if n > len then len else n
  let cur_pos := b.start
  let new_pos := (cur_pos + to_shift) % _io_buffer_size b
  (to_shift, { b with start := new_pos })

/-- `io_buffer_nspit`: copies the first `n` logical bytes into `dest`.
`destPresent` is "`dest != NULL`"; the returned list is what was written
through `dest`.  The C function never stores to `src`, so no updated buffer
is returned. -/
def io_buffer_nspit (src : IO_Buffer) (destPresent : Bool) (n : Nat) :
    IO_Err × List Nat :=
  if destPresent = false then (.inv_ptr, [])
  else if n = 0 then (.ok, [])
  else if n > io_buffer_len src then (.oob, [])
  else if src.end_ ≥ src.start then (.ok, readPhys src.buf src.start n)
  else
    let to_copy := min (_io_buffer_left_until_wrap src) n
    let part1 := readPhys src.buf src.start to_copy
    if n > to_copy then (.ok, part1 ++ readPhys src.buf 0 (n - to_copy))
    else (.ok, part1)

/-- `io_buffer_append`: copies `n` bytes of `src` into the buffer, advancing
`end_` and wrapping past the physical end when necessary. -/
def io_buffer_append (dest : IO_Buffer) (src : List Nat) (n : Nat) :
    IO_Err × IO_Buffer :=
  if n = 0 then (.ok, dest)
  else
    let len := io_buffer_len dest
    let space_left := dest.cap - len
    if n > space_left then (.oob, dest)
    else if dest.start > dest.end_ then
      (.ok, { dest with
                buf := writePhys dest.buf dest.end_ (src.take n),
                end_ := dest.end_ + n })
    else
      let to_copy := min (_io_buffer_left_until_wrap dest) n
      let buf1 := writePhys dest.buf dest.end_ (src.take to_copy)
      let e1 := dest.end_ + to_copy
      let e2 := if e1 = _io_buffer_size dest then 0 else e1
      let m := n - to_copy
      if m > 0 then
        (.ok, { dest with
                  buf := writePhys buf1 e2 ((src.drop to_copy).take m),
                  end_ := e2 + m })
      else
        (.ok, { dest with buf := buf1, end_ := e2 })

/-- One response of the underlying byte source: a read error (negative
return of `IO_READ`) or a batch of bytes. -/
inductive SrcResp where
  | fail
  | bytes (bs : List Nat)
deriving DecidableEq

/-- The byte source: the responses successive `IO_READ` calls return. -/
abbrev Source := List SrcResp

/-- `IO_READ(fd, dst, to_read)`: the next response, truncated to at most
`to_read` bytes (a `read` never returns more than requested); `none`
models a negative return.  An exhausted source yields 0 bytes (EOF). -/
def io_read : Source → Nat → Option (List Nat) × Source
  | [], _ => (some [], [])
  | .fail :: rest, _ => (none, rest)
  | .bytes bs :: rest, to_read => (some (bs.take to_read), rest)

/-- `IO_Reader`: a buffer plus the `nread`/`pos` counters.  The `fd` field
is replaced by the explicit `Source` argument of the reading operations. -/
structure IO_Reader where
  b : IO_Buffer
  nread : Nat
  pos : Nat
deriving DecidableEq

/-- `io_reader_init`: binds a buffer and sets `pos = nread = 0`.  The C
function always returns `IO_ERR_OK`, so only the reader is modelled. -/
def io_reader_init (b : IO_Buffer) : IO_Reader :=
  { b := b, nread := 0, pos := 0 }

/-- `io_reader_buffered`: returns `nread - pos`. -/
def io_reader_buffered (r : IO_Reader) : Nat :=
  r.nread - r.pos

/-- `io_reader_npeek`: non-destructive look-ahead of `n` bytes.  Returns the
error code, the bytes written through `dest`, the updated reader and the
remaining source. -/
def io_reader_npeek (r : IO_Reader) (src : Source) (destPresent : Bool)
    (n : Nat) : IO_Err × List Nat × IO_Reader × Source :=
  if n = 0 then (.ok, [], r, src)
  else if n > r.b.cap then (.oob, [], r, src)
  else
    let buflen := io_buffer_len r.b
    let to_read := n - min n buflen
    if to_read > 0 then
      let rd := io_read src to_read
      match rd.1 with
      | none => (.failed_read, [], r, rd.2)
      | some got =>
        let ap := io_buffer_append r.b got got.length
        if ap.1 ≠ IO_Err.ok then (ap.1, [], { r with b := ap.2 }, rd.2)
        else
          let r' := { r with b := ap.2, nread := r.nread + got.length }
          let result := if got.length < to_read then IO_Err.eof else IO_Err.ok
          let sp := io_buffer_nspit r'.b destPresent
                      (min (io_reader_buffered r') n)
          if sp.1 ≠ IO_Err.ok then (sp.1, [], r', rd.2)
          else (result, sp.2, r', rd.2)
    else
      let sp := io_buffer_nspit r.b destPresent (min (io_reader_buffered r) n)
      if sp.1 ≠ IO_Err.ok then (sp.1, [], r, src)
      else (IO_Err.ok, sp.2, r, src)

/-- `io_reader_nconsume`: consumes up to `n` bytes from the internal buffer
(copying them to `dest` when it is non-null), advancing the buffer and
`pos`.  Takes no `Source`: the C function performs no I/O. -/
def io_reader_nconsume (r : IO_Reader) (destPresent : Bool) (n : Nat) :
    IO_Err × List Nat × IO_Reader :=
  if n = 0 ∧ destPresent then (.ok, [], r)
  else
    let to_copy := min n (io_buffer_len r.b)
    let sp := if destPresent then io_buffer_nspit r.b destPresent to_copy
              else (.ok, [])
    if sp.1 ≠ IO_Err.ok then (sp.1, [], r)
    else
      let b' := (io_buffer_nadvance r.b to_copy).2
      (.ok, sp.2, { r with b := b', pos := r.pos + to_copy })

/-- `io_reader_discard`: drops all buffered bytes, advancing `pos` by the
buffered amount and resetting the buffer. -/
def io_reader_discard (r : IO_Reader) : IO_Err × IO_Reader :=
  (.ok, { r with b := io_buffer_reset r.b, pos := r.pos + io_buffer_len r.b })

/-- `io_reader_nread`: satisfies the request from the buffer first, then
reads the remainder directly from the source into `dest`, advancing both
`pos` and `nread` by the amount obtained. -/
def io_reader_nread (r : IO_Reader) (src : Source) (destPresent : Bool)
    (n : Nat) : IO_Err × List Nat × IO_Reader × Source :=
  if n = 0 then (.ok, [], r, src)
  else
    let start_pos := r.pos
    let cs := io_reader_nconsume r destPresent n
    if cs.1 ≠ IO_Err.ok then (cs.1, cs.2.1, cs.2.2, src)
    else
      let r1 := cs.2.2
      let copied := r1.pos - start_pos
      let to_read := n - copied
      if to_read > 0 then
        let rd := io_read src to_read
        match rd.1 with
        | none => (.failed_read, cs.2.1, r1, rd.2)
        | some got =>
          let r2 := { r1 with pos := r1.pos + got.length,
                              nread := r1.nread + got.length }
          let result := if got.length < to_read then IO_Err.eof else IO_Err.ok
          (result, cs.2.1 ++ got, r2, rd.2)
      else (.ok, cs.2.1, r1, src)

/-- The byte at logical index `i` of the buffer. -/
def byteAt (b : IO_Buffer) (i : Nat) : Nat :=
  b.buf.getD ((b.start + i) % _io_buffer_size b) 0

/-- The first `k` logical bytes of the buffer, in logical order. -/
def logicalTake (b : IO_Buffer) (k : Nat) : List Nat :=
  (List.range k).map (byteAt b)

/-- Structural well-formedness of a buffer: the offsets lie inside the
physical region and the storage has physical size `cap + 1`, exactly as
`io_buffer_init` establishes. -/
abbrev bufWF (b : IO_Buffer) : Prop :=
  b.start ≤ b.cap ∧ b.end_ ≤ b.cap ∧ b.buf.length = b.cap + 1

/-- Well-formedness of a reader: its buffer is well-formed, `pos ≤ nread`,
and `nread - pos` equals the buffer's logical length. -/
abbrev readerWF (r : IO_Reader) : Prop :=
  bufWF r.b ∧ r.pos ≤ r.nread ∧ r.nread - r.pos = io_buffer_len r.b

/-- One reader operation together with its arguments. -/
inductive ReaderOp where
  | peek (destPresent : Bool) (n : Nat)
  | consume (destPresent : Bool) (n : Nat)
  | readOp (destPresent : Bool) (n : Nat)
  | discard
deriving DecidableEq

/-- Applies one reader operation to a reader/source pair. -/
def applyReaderOp (s : IO_Reader × Source) (op : ReaderOp) :
    IO_Reader × Source :=
  match op with
  | .peek dp n =>
      let t := io_reader_npeek s.1 s.2 dp n
      (t.2.2.1, t.2.2.2)
  | .consume dp n => ((io_reader_nconsume s.1 dp n).2.2, s.2)
  | .readOp dp n =>
      let t := io_reader_nread s.1 s.2 dp n
      (t.2.2.1, t.2.2.2)
  | .discard => ((io_reader_discard s.1).2, s.2)

/-- Runs a sequence of reader operations. -/
def runReader (s : IO_Reader × Source) (ops : List ReaderOp) :
    IO_Reader × Source :=
  ops.foldl applyReaderOp s

/-- One buffer operation together with its arguments. -/
inductive BufOp where
  | append (src : List Nat) (n : Nat)
  | advance (n : Nat)
  | reset
  | copyOut (destPresent : Bool) (n : Nat)
deriving DecidableEq

/-- Applies one buffer operation (`copy_out` never mutates the buffer). -/
def applyBufOp (b : IO_Buffer) (op : BufOp) : IO_Buffer :=
  match op with
  | .append src n => (io_buffer_append b src n).2
  | .advance n => (io_buffer_nadvance b n).2
  | .reset => io_buffer_reset b
  | .copyOut _ _ => b

/-- Runs a sequence of buffer operations. -/
def runBuf (b : IO_Buffer) (ops : List BufOp) : IO_Buffer :=
  ops.foldl applyBufOp b

/-! ### Helper lemmas about the physical-region primitives -/

theorem writePhys_length (xs l : List Nat) (off : Nat) :
    (writePhys l off xs).length = l.length := by
  induction xs generalizing l off with
  | nil => rfl
  | cons x xs ih => rw [writePhys, ih, List.length_set]

theorem getD_writePhys_out (xs l : List Nat) (off j : Nat)
    (h : j < off ∨ off + xs.length ≤ j) :
    (writePhys l off xs).getD j 0 = l.getD j 0 := by
  induction xs generalizing l off with
  | nil => rfl
  | cons x xs ih =>
    rw [writePhys, ih _ _ (by simp only [List.length_cons] at h; omega)]
    rw [List.getD_eq_getElem?_getD, List.getD_eq_getElem?_getD,
      List.getElem?_set_ne (by simp only [List.length_cons] at h; omega)]

theorem getD_writePhys_mid (xs l : List Nat) (off k : Nat)
    (hk : k < xs.length) (hb : off + k < l.length) :
    (writePhys l off xs).getD (off + k) 0 = xs.getD k 0 := by
  induction xs generalizing l off k with
  | nil => simp at hk
  | cons x xs ih =>
    rw [writePhys]
    cases k with
    | zero =>
      show (writePhys (l.set off x) (off + 1) xs).getD off 0 = (x :: xs).getD 0 0
      rw [getD_writePhys_out _ _ _ _ (Or.inl (by omega)),
        List.getD_eq_getElem?_getD,
        List.getElem?_set_eq_of_lt x (by omega)]
      rfl
    | succ k' =>
      have e : off + (k' + 1) = (off + 1) + k' := by omega
      rw [e, ih (l.set off x) (off + 1) k'
        (by simpa using hk) (by rw [List.length_set]; omega)]
      rfl

theorem getD_take (l : List Nat) (n j : Nat) (h : j < n) :
    (l.take n).getD j 0 = l.getD j 0 := by
  rw [List.getD_eq_getElem?_getD, List.getD_eq_getElem?_getD,
    List.getElem?_take, if_pos h]

theorem getD_drop (l : List Nat) (i j : Nat) :
    (l.drop i).getD j 0 = l.getD (i + j) 0 := by
  rw [List.getD_eq_getElem?_getD, List.getD_eq_getElem?_getD,
    List.getElem?_drop]

theorem readPhys_length (l : List Nat) (off n : Nat) :
    (readPhys l off n).length = n := by
  simp [readPhys]

theorem readPhys_getElem (l : List Nat) (off n i : Nat)
    (h : i < (readPhys l off n).length) :
    (readPhys l off n)[i] = l.getD (off + i) 0 := by
  simp [readPhys]

theorem logicalTake_length (b : IO_Buffer) (k : Nat) :
    (logicalTake b k).length = k := by
  simp [logicalTake]

theorem logicalTake_getElem (b : IO_Buffer) (k i : Nat)
    (h : i < (logicalTake b k).length) :
    (logicalTake b k)[i] = byteAt b i := by
  simp [logicalTake]

theorem take_eq_range_map (l : List Nat) (n : Nat) (h : n ≤ l.length) :
    l.take n = (List.range n).map (fun i => l.getD i 0) := by
  apply List.ext_getElem
  · rw [List.length_take, List.length_map, List.length_range]; omega
  · intro i h1 h2
    rw [List.getElem_take, List.getElem_map, List.getElem_range,
      List.getD_eq_getElem]

theorem len_le_cap (b : IO_Buffer) (hwf : bufWF b) :
    io_buffer_len b ≤ b.cap := by
  obtain ⟨h1, h2, _⟩ := hwf
  unfold io_buffer_len _io_buffer_size
  split <;> omega

/-- `io_buffer_nspit` with a valid destination and an in-range length
delivers exactly the first `n` logical bytes, in logical order. -/
theorem io_buffer_nspit_spec (b : IO_Buffer) (n : Nat) (hwf : bufWF b)
    (hn : n ≤ io_buffer_len b) :
    io_buffer_nspit b true n = (IO_Err.ok, logicalTake b n) := by
  obtain ⟨hs, he, hl⟩ := hwf
  rcases Nat.eq_zero_or_pos n with hn0 | hn0
  · subst hn0; simp [io_buffer_nspit, logicalTake]
  · unfold io_buffer_nspit
    rw [if_neg (by simp), if_neg (by omega), if_neg (by omega)]
    by_cases hew : b.end_ ≥ b.start
    · rw [if_pos hew]
      have hlen : io_buffer_len b = b.end_ - b.start := by
        unfold io_buffer_len; rw [if_pos hew]
      have : readPhys b.buf b.start n = logicalTake b n := by
        unfold readPhys logicalTake
        apply List.map_congr_left
        intro i hi
        rw [List.mem_range] at hi
        unfold byteAt _io_buffer_size
        rw [Nat.mod_eq_of_lt (by omega)]
      rw [this]
    · rw [if_neg hew]
      have hlen : io_buffer_len b = b.cap + 1 - b.start + b.end_ := by
        unfold io_buffer_len _io_buffer_size; rw [if_neg hew]
      have hluw : _io_buffer_left_until_wrap b = b.cap + 1 - b.start := by
        unfold _io_buffer_left_until_wrap _io_buffer_size; rw [if_neg hew]
      rw [hluw]
      by_cases hsplit : n > min (b.cap + 1 - b.start) n
      · rw [if_pos hsplit]
        have htc : min (b.cap + 1 - b.start) n = b.cap + 1 - b.start := by omega
        rw [htc] at hsplit ⊢
        have heq : readPhys b.buf b.start (b.cap + 1 - b.start) ++
            readPhys b.buf 0 (n - (b.cap + 1 - b.start)) = logicalTake b n := by
          apply List.ext_getElem
          · rw [List.length_append, readPhys_length, readPhys_length,
              logicalTake_length]; omega
          · intro i h1 h2
            rw [logicalTake_getElem]
            unfold byteAt _io_buffer_size
            by_cases hi : i < b.cap + 1 - b.start
            · rw [List.getElem_append_left (by rw [readPhys_length]; omega),
                readPhys_getElem, Nat.mod_eq_of_lt (by omega)]
            · rw [List.getElem_append_right (by rw [readPhys_length]; omega),
                readPhys_getElem, Nat.mod_eq_sub_mod (by omega),
                Nat.mod_eq_of_lt (by rw [logicalTake_length] at h2; omega)]
              congr 1
              rw [readPhys_length, logicalTake_length] at *
              omega
        rw [heq]
      · rw [if_neg hsplit]
        have htc : min (b.cap + 1 - b.start) n = n := by omega
        rw [htc]
        have : readPhys b.buf b.start n = logicalTake b n := by
          unfold readPhys logicalTake
          apply List.map_congr_left
          intro i hi
          rw [List.mem_range] at hi
          unfold byteAt _io_buffer_size
          rw [Nat.mod_eq_of_lt (by omega)]
        rw [this]

/-- Advancing `start` by `t ≤ len` positions (modulo the physical size)
shortens the logical length by exactly `t`. -/
theorem len_advance (b : IO_Buffer) (t : Nat) (hs : b.start ≤ b.cap)
    (he : b.end_ ≤ b.cap) (ht : t ≤ io_buffer_len b) :
    io_buffer_len { b with start := (b.start + t) % (b.cap + 1) } =
      io_buffer_len b - t := by
  obtain ⟨bf, s, e, cap⟩ := b
  dsimp only at *
  unfold io_buffer_len _io_buffer_size at *
  dsimp only at *
  by_cases hew : e ≥ s
  · rw [if_pos hew] at ht ⊢
    rw [Nat.mod_eq_of_lt (by omega)]
    split <;> omega
  · rw [if_neg hew] at ht ⊢
    by_cases hcase : s + t < cap + 1
    · rw [Nat.mod_eq_of_lt hcase]
      split <;> omega
    · rw [Nat.mod_eq_sub_mod (by omega), Nat.mod_eq_of_lt (by omega)]
      split <;> omega

/-- Full characterization of `io_buffer_nadvance` on a well-formed buffer. -/
theorem io_buffer_nadvance_spec (b : IO_Buffer) (n : Nat) (hwf : bufWF b) :
    (io_buffer_nadvance b n).1 = min n (io_buffer_len b) ∧
    (io_buffer_nadvance b n).2.buf = b.buf ∧
    (io_buffer_nadvance b n).2.end_ = b.end_ ∧
    (io_buffer_nadvance b n).2.cap = b.cap ∧
    (io_buffer_nadvance b n).2.start =
      (b.start + min n (io_buffer_len b)) % (b.cap + 1) ∧
    bufWF (io_buffer_nadvance b n).2 ∧
    io_buffer_len (io_buffer_nadvance b n).2 =
      io_buffer_len b - min n (io_buffer_len b) := by
  obtain ⟨hs, he, hl⟩ := hwf
  have hmin : (if n > io_buffer_len b then io_buffer_len b else n) =
      min n (io_buffer_len b) := by split <;> omega
  have hlen := len_advance b (min n (io_buffer_len b)) hs he
    (Nat.min_le_right _ _)
  simp only [io_buffer_nadvance, _io_buffer_size, hmin]
  refine ⟨by trivial, by trivial, by trivial, by trivial, by trivial,
    ⟨Nat.le_of_lt_succ (Nat.mod_lt _ (by omega)), he, hl⟩, hlen⟩


/-- Value of `io_buffer_append` in the wrapped-window branch
(`start > end`): one contiguous copy at `end_`. -/
theorem io_buffer_append_eq_wrapped (bf src : List Nat) (s e cap n : Nat)
    (hgt : s > e) (hn : 0 < n)
    (hsp : n ≤ cap - io_buffer_len ⟨bf, s, e, cap⟩) :
    io_buffer_append ⟨bf, s, e, cap⟩ src n =
      (IO_Err.ok, ⟨writePhys bf e (src.take n), s, e + n, cap⟩) := by
  unfold io_buffer_append
  rw [if_neg (by omega)]
  simp only []
  rw [if_neg (by omega), if_pos (by omega)]

/-- Value of `io_buffer_append` when `end ≥ start` and the request fits
before the physical end: one contiguous copy, with `end_` wrapped to 0
exactly when it lands on the physical size. -/
theorem io_buffer_append_eq_nowrap (bf src : List Nat) (s e cap n : Nat)
    (hew : e ≥ s) (hn : 0 < n)
    (hsp : n ≤ cap - io_buffer_len ⟨bf, s, e, cap⟩)
    (hfit : n ≤ cap + 1 - e) :
    io_buffer_append ⟨bf, s, e, cap⟩ src n =
      (IO_Err.ok, ⟨writePhys bf e (src.take n), s,
        if e + n = cap + 1 then 0 else e + n, cap⟩) := by
  have hluw : _io_buffer_left_until_wrap ⟨bf, s, e, cap⟩ = cap + 1 - e := by
    unfold _io_buffer_left_until_wrap _io_buffer_size
    dsimp only
    rw [if_pos (by omega)]
  unfold io_buffer_append
  rw [if_neg (by omega)]
  simp only [hluw, _io_buffer_size]
  rw [if_neg (by omega), if_neg (by omega),
    (show min (cap + 1 - e) n = n from by omega), Nat.sub_self,
    if_neg (by omega : ¬ 0 > 0)]

/-- Value of `io_buffer_append` when `end ≥ start` and the request crosses
the physical end: a tail-of-region copy, `end_` wrapped to 0, then a
head-of-region copy. -/
theorem io_buffer_append_eq_wrap (bf src : List Nat) (s e cap n : Nat)
    (hew : e ≥ s) (hecap : e ≤ cap) (hn : 0 < n)
    (hsp : n ≤ cap - io_buffer_len ⟨bf, s, e, cap⟩)
    (hbig : cap + 1 - e < n) :
    io_buffer_append ⟨bf, s, e, cap⟩ src n =
      (IO_Err.ok, ⟨writePhys (writePhys bf e (src.take (cap + 1 - e))) 0
          ((src.drop (cap + 1 - e)).take (n - (cap + 1 - e))), s,
        n - (cap + 1 - e), cap⟩) := by
  have hluw : _io_buffer_left_until_wrap ⟨bf, s, e, cap⟩ = cap + 1 - e := by
    unfold _io_buffer_left_until_wrap _io_buffer_size
    dsimp only
    rw [if_pos (by omega)]
  unfold io_buffer_append
  rw [if_neg (by omega)]
  simp only [hluw, _io_buffer_size]
  rw [if_neg (by omega), if_neg (by omega),
    (show min (cap + 1 - e) n = cap + 1 - e from by omega)]
  rw [if_pos (by omega : e + (cap + 1 - e) = cap + 1),
    if_pos (by omega : n - (cap + 1 - e) > 0), Nat.zero_add]

/-- A successful `io_buffer_append` (request within the free space) returns
`IO_ERR_OK`, keeps the buffer well-formed, preserves `start` and `cap`, and
grows the logical length by exactly `n`. -/
theorem io_buffer_append_wf (b : IO_Buffer) (src : List Nat) (n : Nat)
    (hwf : bufWF b) (hn : n ≤ b.cap - io_buffer_len b) :
    (io_buffer_append b src n).1 = IO_Err.ok ∧
    bufWF (io_buffer_append b src n).2 ∧
    (io_buffer_append b src n).2.start = b.start ∧
    (io_buffer_append b src n).2.cap = b.cap ∧
    io_buffer_len (io_buffer_append b src n).2 = io_buffer_len b + n := by
  obtain ⟨bf, s, e, cap⟩ := b
  obtain ⟨hs, he, hl⟩ := hwf
  dsimp only at hs he hl hn ⊢
  rcases Nat.eq_zero_or_pos n with h0 | h0
  · subst h0
    unfold io_buffer_append
    rw [if_pos rfl]
    exact ⟨rfl, ⟨hs, he, hl⟩, rfl, rfl, rfl⟩
  · by_cases hgt : s > e
    · have hlen : io_buffer_len ⟨bf, s, e, cap⟩ = cap + 1 - s + e := by
        unfold io_buffer_len _io_buffer_size
        dsimp only
        rw [if_neg (by omega)]
      rw [io_buffer_append_eq_wrapped bf src s e cap n hgt h0 hn]
      rw [hlen] at hn
      refine ⟨rfl, ⟨hs, by dsimp only; omega, ?_⟩, rfl, rfl, ?_⟩
      · dsimp only
        rw [writePhys_length, hl]
      · rw [hlen]
        unfold io_buffer_len _io_buffer_size
        dsimp only
        rw [if_neg (by omega)]
        omega
    · have hew : e ≥ s := by omega
      have hlen : io_buffer_len ⟨bf, s, e, cap⟩ = e - s := by
        unfold io_buffer_len _io_buffer_size
        dsimp only
        rw [if_pos (by omega)]
      by_cases hbig : cap + 1 - e < n
      · rw [io_buffer_append_eq_wrap bf src s e cap n hew he h0 hn hbig]
        rw [hlen] at hn
        have hs1 : 1 ≤ s := by omega
        refine ⟨rfl, ⟨hs, by dsimp only; omega, ?_⟩, rfl, rfl, ?_⟩
        · dsimp only
          rw [writePhys_length, writePhys_length, hl]
        · rw [hlen]
          unfold io_buffer_len _io_buffer_size
          dsimp only
          rw [if_neg (by omega)]
          omega
      · rw [io_buffer_append_eq_nowrap bf src s e cap n hew h0 hn (by omega)]
        rw [hlen] at hn
        by_cases hfull : e + n = cap + 1
        · rw [if_pos hfull]
          have hs1 : 1 ≤ s := by omega
          refine ⟨rfl, ⟨hs, by dsimp only; omega, ?_⟩, rfl, rfl, ?_⟩
          · dsimp only
            rw [writePhys_length, hl]
          · rw [hlen]
            unfold io_buffer_len _io_buffer_size
            dsimp only
            rw [if_neg (by omega)]
            omega
        · rw [if_neg hfull]
          refine ⟨rfl, ⟨hs, by dsimp only; omega, ?_⟩, rfl, rfl, ?_⟩
          · dsimp only
            rw [writePhys_length, hl]
          · rw [hlen]
            unfold io_buffer_len _io_buffer_size
            dsimp only
            rw [if_pos (by omega)]
            omega

/-- A successful `io_buffer_append` leaves the old logical bytes in place
and puts the `n` copied source bytes right after them, in order. -/
theorem io_buffer_append_content (b : IO_Buffer) (src : List Nat) (n : Nat)
    (hwf : bufWF b) (hn : n ≤ b.cap - io_buffer_len b)
    (hsrc : n ≤ src.length) :
    (∀ i, i < io_buffer_len b →
      byteAt (io_buffer_append b src n).2 i = byteAt b i) ∧
    (∀ j, j < n →
      byteAt (io_buffer_append b src n).2 (io_buffer_len b + j) =
        src.getD j 0) := by
  obtain ⟨bf, s, e, cap⟩ := b
  obtain ⟨hs, he, hl⟩ := hwf
  dsimp only at hs he hl hn ⊢
  rcases Nat.eq_zero_or_pos n with h0 | h0
  · subst h0
    unfold io_buffer_append
    rw [if_pos rfl]
    exact ⟨fun i _ => rfl, fun j hj => absurd hj (by omega)⟩
  · by_cases hgt : s > e
    · have hlen : io_buffer_len ⟨bf, s, e, cap⟩ = cap + 1 - s + e := by
        unfold io_buffer_len _io_buffer_size
        dsimp only
        rw [if_neg (by omega)]
      rw [io_buffer_append_eq_wrapped bf src s e cap n hgt h0 hn, hlen]
      rw [hlen] at hn
      have htk : (src.take n).length = n := by
        rw [List.length_take]; omega
      constructor
      · intro i hi
        unfold byteAt _io_buffer_size
        dsimp only
        by_cases hio : s + i < cap + 1
        · rw [Nat.mod_eq_of_lt hio,
            getD_writePhys_out _ _ _ _ (by omega)]
        · rw [Nat.mod_eq_sub_mod (by omega),
            Nat.mod_eq_of_lt (by omega),
            getD_writePhys_out _ _ _ _ (by rw [htk]; omega)]
      · intro j hj
        unfold byteAt _io_buffer_size
        dsimp only
        rw [(show s + (cap + 1 - s + e + j) = (cap + 1) + (e + j) from by
          omega), Nat.add_mod_left, Nat.mod_eq_of_lt (by omega),
          getD_writePhys_mid _ _ _ _ (by omega) (by omega),
          getD_take _ _ _ hj]
    · have hew : e ≥ s := by omega
      have hlen : io_buffer_len ⟨bf, s, e, cap⟩ = e - s := by
        unfold io_buffer_len _io_buffer_size
        dsimp only
        rw [if_pos (by omega)]
      by_cases hbig : cap + 1 - e < n
      · rw [io_buffer_append_eq_wrap bf src s e cap n hew he h0 hn hbig, hlen]
        rw [hlen] at hn
        have hs1 : 1 ≤ s := by omega
        have htk : (src.take (cap + 1 - e)).length = cap + 1 - e := by
          rw [List.length_take]; omega
        have htk2 : ((src.drop (cap + 1 - e)).take (n - (cap + 1 - e))).length
            = n - (cap + 1 - e) := by
          rw [List.length_take, List.length_drop]; omega
        constructor
        · intro i hi
          unfold byteAt _io_buffer_size
          dsimp only
          rw [Nat.mod_eq_of_lt (by omega),
            getD_writePhys_out _ _ _ _ (by rw [htk2]; omega),
            getD_writePhys_out _ _ _ _ (by omega)]
        · intro j hj
          unfold byteAt _io_buffer_size
          dsimp only
          by_cases hjc : j < cap + 1 - e
          · rw [Nat.mod_eq_of_lt (by omega),
              (show s + (e - s + j) = e + j from by omega),
              getD_writePhys_out _ _ _ _ (by rw [htk2]; omega),
              getD_writePhys_mid _ _ _ _ (by omega) (by omega),
              getD_take _ _ _ hjc]
          · rw [(show s + (e - s + j) = e + j from by omega),
              Nat.mod_eq_sub_mod (by omega), Nat.mod_eq_of_lt (by omega),
              (show e + j - (cap + 1) = 0 + (j - (cap + 1 - e)) from by
                omega),
              getD_writePhys_mid _ _ _ _ (by rw [htk2]; omega)
                (by rw [writePhys_length]; omega),
              getD_take _ _ _ (by omega), getD_drop]
            congr 1
            omega
      · rw [io_buffer_append_eq_nowrap bf src s e cap n hew h0 hn (by omega),
          hlen]
        rw [hlen] at hn
        have htk : (src.take n).length = n := by
          rw [List.length_take]; omega
        constructor
        · intro i hi
          unfold byteAt _io_buffer_size
          dsimp only
          rw [Nat.mod_eq_of_lt (by omega),
            getD_writePhys_out _ _ _ _ (by omega)]
        · intro j hj
          unfold byteAt _io_buffer_size
          dsimp only
          rw [(show s + (e - s + j) = e + j from by omega),
            Nat.mod_eq_of_lt (by omega),
            getD_writePhys_mid _ _ _ _ (by omega) (by omega),
            getD_take _ _ _ hj]

/-- Appending `n` source bytes extends the logical content by exactly
`src.take n`. -/
theorem logicalTake_append (b : IO_Buffer) (src : List Nat) (n : Nat)
    (hwf : bufWF b) (hn : n ≤ b.cap - io_buffer_len b)
    (hsrc : n ≤ src.length) :
    logicalTake (io_buffer_append b src n).2 (io_buffer_len b + n) =
      logicalTake b (io_buffer_len b) ++ src.take n := by
  obtain ⟨hold, hnew⟩ := io_buffer_append_content b src n hwf hn hsrc
  apply List.ext_getElem
  · rw [logicalTake_length, List.length_append, logicalTake_length,
      List.length_take]
    omega
  · intro i h1 h2
    rw [logicalTake_getElem]
    rw [logicalTake_length] at h1
    by_cases hi : i < io_buffer_len b
    · rw [List.getElem_append_left (by rw [logicalTake_length]; omega),
        logicalTake_getElem]
      exact hold i hi
    · rw [List.getElem_append_right (by rw [logicalTake_length]; omega),
        List.getElem_take, ← List.getD_eq_getElem _ 0
          (by rw [logicalTake_length]; omega), logicalTake_length]
      have hj : i - io_buffer_len b < n := by omega
      have hb := hnew (i - io_buffer_len b) hj
      rw [(show io_buffer_len b + (i - io_buffer_len b) = i from by
        omega)] at hb
      exact hb

/-- A successful `IO_READ` never returns more bytes than requested. -/
theorem io_read_some_length (src : Source) (k : Nat) (got : List Nat)
    (h : (io_read src k).1 = some got) : got.length ≤ k := by
  match src with
  | [] =>
    simp only [io_read] at h
    cases h
    simp
  | .fail :: rest =>
    simp only [io_read] at h
    exact Option.noConfusion h
  | .bytes bs :: rest =>
    simp only [io_read] at h
    cases h
    rw [List.length_take]
    omega

/-- Full characterization of `io_reader_nconsume` on a well-formed reader:
it always succeeds, delivers the first `min n buffered` logical bytes when
`dest` is present (nothing when absent), advances the buffer's `start` and
`pos` by that amount, and preserves well-formedness.  It takes no source:
the C function performs no I/O. -/
theorem io_reader_nconsume_spec (r : IO_Reader) (dp : Bool) (n : Nat)
    (hwf : readerWF r) :
    (io_reader_nconsume r dp n).1 = IO_Err.ok ∧
    (io_reader_nconsume r dp n).2.1 =
      (if dp then logicalTake r.b (min n (io_buffer_len r.b)) else []) ∧
    (io_reader_nconsume r dp n).2.2.pos =
      r.pos + min n (io_buffer_len r.b) ∧
    (io_reader_nconsume r dp n).2.2.nread = r.nread ∧
    (io_reader_nconsume r dp n).2.2.b.start =
      (r.b.start + min n (io_buffer_len r.b)) % (r.b.cap + 1) ∧
    (io_reader_nconsume r dp n).2.2.b.end_ = r.b.end_ ∧
    (io_reader_nconsume r dp n).2.2.b.buf = r.b.buf ∧
    (io_reader_nconsume r dp n).2.2.b.cap = r.b.cap ∧
    readerWF (io_reader_nconsume r dp n).2.2 := by
  obtain ⟨hbwf, hpn, hinv⟩ := hwf
  have hcapb := hbwf.1
  have htc : min n (io_buffer_len r.b) ≤ io_buffer_len r.b :=
    Nat.min_le_right _ _
  obtain ⟨ha1, ha2, ha3, ha4, ha5, ha6, ha7⟩ :=
    io_buffer_nadvance_spec r.b (min n (io_buffer_len r.b)) hbwf
  have hmm : min (min n (io_buffer_len r.b)) (io_buffer_len r.b) =
      min n (io_buffer_len r.b) := by omega
  rw [hmm] at ha5 ha7
  by_cases h0 : n = 0 ∧ dp = true
  · have hkey : io_reader_nconsume r dp n = (IO_Err.ok, [], r) := by
      unfold io_reader_nconsume
      rw [if_pos h0]
    obtain ⟨hn0, hdp⟩ := h0
    subst hn0
    have hm0 : min 0 (io_buffer_len r.b) = 0 := by omega
    rw [hkey, hm0] at *
    refine ⟨rfl, ?_, rfl, rfl, ?_, rfl, rfl, rfl, ⟨hbwf, hpn, hinv⟩⟩
    · rw [if_pos hdp]
      simp [logicalTake]
    · rw [Nat.add_zero, Nat.mod_eq_of_lt (by omega)]
  · have hsp : (if dp then io_buffer_nspit r.b dp (min n (io_buffer_len r.b))
        else ((IO_Err.ok : IO_Err), ([] : List Nat))) =
        (IO_Err.ok, if dp then logicalTake r.b (min n (io_buffer_len r.b))
          else []) := by
      cases dp
      · rfl
      · exact io_buffer_nspit_spec r.b _ hbwf htc
    have hkey : io_reader_nconsume r dp n =
        (IO_Err.ok,
          (if dp then logicalTake r.b (min n (io_buffer_len r.b)) else []),
          { r with b := (io_buffer_nadvance r.b (min n (io_buffer_len r.b))).2,
                   pos := r.pos + min n (io_buffer_len r.b) }) := by
      unfold io_reader_nconsume
      rw [if_neg h0]
      simp only []
      rw [hsp, if_neg (by simp)]
    rw [hkey]
    refine ⟨rfl, rfl, rfl, rfl, ha5, ha3, ha2, ha4, ⟨ha6, ?_, ?_⟩⟩
    · show r.pos + min n (io_buffer_len r.b) ≤ r.nread
      omega
    · show r.nread - (r.pos + min n (io_buffer_len r.b)) =
        io_buffer_len (io_buffer_nadvance r.b (min n (io_buffer_len r.b))).2
      rw [ha7]
      omega

/-- `io_reader_npeek` never changes `pos`, on any path. -/
theorem io_reader_npeek_pos (r : IO_Reader) (src : Source) (dp : Bool)
    (n : Nat) : (io_reader_npeek r src dp n).2.2.1.pos = r.pos := by
  unfold io_reader_npeek
  simp only []
  repeat' split
  all_goals rfl

/-- `io_reader_npeek` preserves reader well-formedness. -/
theorem io_reader_npeek_inv (r : IO_Reader) (src : Source) (dp : Bool)
    (n : Nat) (hwf : readerWF r) :
    readerWF (io_reader_npeek r src dp n).2.2.1 := by
  obtain ⟨hbwf, hpn, hinv⟩ := hwf
  unfold io_reader_npeek
  by_cases h1 : n = 0
  · rw [if_pos h1]
    exact ⟨hbwf, hpn, hinv⟩
  · rw [if_neg h1]
    by_cases h2 : n > r.b.cap
    · rw [if_pos h2]
      exact ⟨hbwf, hpn, hinv⟩
    · rw [if_neg h2]
      simp only []
      by_cases h3 : n - min n (io_buffer_len r.b) > 0
      · rw [if_pos h3]
        rcases hrd : (io_read src (n - min n (io_buffer_len r.b))).1
          with _ | got
        · exact ⟨hbwf, hpn, hinv⟩
        · simp only []
          have hgl := io_read_some_length _ _ _ hrd
          have hsp2 : got.length ≤ r.b.cap - io_buffer_len r.b := by omega
          obtain ⟨hap1, hapwf, hapst, hapcap, haplen⟩ :=
            io_buffer_append_wf r.b got got.length hbwf hsp2
          rw [if_neg (by rw [hap1]; simp)]
          have hr' : readerWF
              { r with b := (io_buffer_append r.b got got.length).2,
                       nread := r.nread + got.length } := by
            refine ⟨hapwf, by show r.pos ≤ r.nread + got.length; omega, ?_⟩
            show r.nread + got.length - r.pos =
              io_buffer_len (io_buffer_append r.b got got.length).2
            rw [haplen]
            omega
          repeat' split
          all_goals exact hr'
      · rw [if_neg h3]
        split <;> exact ⟨hbwf, hpn, hinv⟩

/-- `io_reader_nread` preserves reader well-formedness. -/
theorem io_reader_nread_inv (r : IO_Reader) (src : Source) (dp : Bool)
    (n : Nat) (hwf : readerWF r) :
    readerWF (io_reader_nread r src dp n).2.2.1 := by
  unfold io_reader_nread
  by_cases h1 : n = 0
  · rw [if_pos h1]
    exact hwf
  · rw [if_neg h1]
    simp only []
    obtain ⟨hc1, hc2, hc3, hc4, hc5, hc6, hc7, hc8, hcwf⟩ :=
      io_reader_nconsume_spec r dp n hwf
    rw [if_neg (by rw [hc1]; simp)]
    obtain ⟨hbwf1, hpn1, hinv1⟩ := hcwf
    by_cases h3 : n - ((io_reader_nconsume r dp n).2.2.pos - r.pos) > 0
    · rw [if_pos h3]
      rcases hrd : (io_read src
          (n - ((io_reader_nconsume r dp n).2.2.pos - r.pos))).1 with _ | got
      · exact ⟨hbwf1, hpn1, hinv1⟩
      · simp only []
        refine ⟨hbwf1, ?_, ?_⟩
        · show (io_reader_nconsume r dp n).2.2.pos + got.length ≤
            (io_reader_nconsume r dp n).2.2.nread + got.length
          omega
        · show (io_reader_nconsume r dp n).2.2.nread + got.length -
            ((io_reader_nconsume r dp n).2.2.pos + got.length) =
            io_buffer_len (io_reader_nconsume r dp n).2.2.b
          omega
    · rw [if_neg h3]
      exact ⟨hbwf1, hpn1, hinv1⟩

/-- Full characterization of `io_reader_discard` on a well-formed reader. -/
theorem io_reader_discard_spec (r : IO_Reader) (hwf : readerWF r) :
    (io_reader_discard r).1 = IO_Err.ok ∧
    (io_reader_discard r).2.pos = r.pos + io_buffer_len r.b ∧
    (io_reader_discard r).2.nread = r.nread ∧
    (io_reader_discard r).2.pos = (io_reader_discard r).2.nread ∧
    io_buffer_len (io_reader_discard r).2.b = 0 ∧
    readerWF (io_reader_discard r).2 := by
  obtain ⟨⟨hs, he, hl⟩, hpn, hinv⟩ := hwf
  have hlen0 : io_buffer_len (io_buffer_reset r.b) = 0 := by
    unfold io_buffer_len io_buffer_reset
    simp
  refine ⟨rfl, rfl, rfl, ?_, hlen0, ⟨⟨he, he, hl⟩, ?_, ?_⟩⟩
  · show r.pos + io_buffer_len r.b = r.nread
    omega
  · show r.pos + io_buffer_len r.b ≤ r.nread
    omega
  · show r.nread - (r.pos + io_buffer_len r.b) =
      io_buffer_len (io_buffer_reset r.b)
    rw [hlen0]
    omega

/-- Every reader operation preserves reader well-formedness. -/
theorem runReader_inv (ops : List ReaderOp) (s : IO_Reader × Source)
    (hwf : readerWF s.1) : readerWF (runReader s ops).1 := by
  induction ops generalizing s with
  | nil => exact hwf
  | cons op rest ih =>
    refine ih (applyReaderOp s op) ?_
    cases op with
    | peek dp n => exact io_reader_npeek_inv s.1 s.2 dp n hwf
    | consume dp n =>
      exact (io_reader_nconsume_spec s.1 dp n hwf).2.2.2.2.2.2.2.2
    | readOp dp n => exact io_reader_nread_inv s.1 s.2 dp n hwf
    | discard => exact (io_reader_discard_spec s.1 hwf).2.2.2.2.2

/-- `io_buffer_append` with a request exceeding the free space returns
`IO_ERR_OOB` and the buffer unchanged. -/
theorem io_buffer_append_oob (b : IO_Buffer) (src : List Nat) (n : Nat)
    (h : b.cap - io_buffer_len b < n) :
    io_buffer_append b src n = (IO_Err.oob, b) := by
  unfold io_buffer_append
  rw [if_neg (by omega)]
  simp only []
  rw [if_pos (by omega)]

/-- Every buffer operation preserves buffer well-formedness. -/
theorem applyBufOp_wf (b : IO_Buffer) (op : BufOp) (hwf : bufWF b) :
    bufWF (applyBufOp b op) := by
  obtain ⟨hs, he, hl⟩ := hwf
  cases op with
  | append src n =>
    by_cases hn : n ≤ b.cap - io_buffer_len b
    · exact (io_buffer_append_wf b src n ⟨hs, he, hl⟩ hn).2.1
    · show bufWF (io_buffer_append b src n).2
      rw [io_buffer_append_oob b src n (by omega)]
      exact ⟨hs, he, hl⟩
  | advance n => exact (io_buffer_nadvance_spec b n ⟨hs, he, hl⟩).2.2.2.2.2.1
  | reset => exact ⟨he, he, hl⟩
  | copyOut dp n => exact ⟨hs, he, hl⟩

/-- Any sequence of buffer operations preserves buffer well-formedness. -/
theorem runBuf_wf (ops : List BufOp) (b : IO_Buffer) (hwf : bufWF b) :
    bufWF (runBuf b ops) := by
  induction ops generalizing b with
  | nil => exact hwf
  | cons op rest ih => exact ih (applyBufOp b op) (applyBufOp_wf b op hwf)

/-- When the next source response cannot fill a peek of `n ≤ cap` bytes,
`io_reader_npeek` returns `IO_ERR_EOF`, still delivers everything that was
available (the old buffered bytes followed by the fresh source bytes),
leaves exactly that amount buffered, and does not change `pos`. -/
theorem io_reader_npeek_eof (r : IO_Reader) (rest : Source) (bs : List Nat)
    (n : Nat) (hwf : readerWF r) (hcap : n ≤ r.b.cap)
    (hshort : io_buffer_len r.b + bs.length < n) :
    (io_reader_npeek r (SrcResp.bytes bs :: rest) true n).1 = IO_Err.eof ∧
    (io_reader_npeek r (SrcResp.bytes bs :: rest) true n).2.1 =
      logicalTake r.b (io_buffer_len r.b) ++ bs ∧
    io_reader_buffered
      (io_reader_npeek r (SrcResp.bytes bs :: rest) true n).2.2.1 =
      io_buffer_len r.b + bs.length ∧
    (io_reader_npeek r (SrcResp.bytes bs :: rest) true n).2.2.1.pos =
      r.pos ∧
    (io_reader_npeek r (SrcResp.bytes bs :: rest) true n).2.2.2 = rest := by
  obtain ⟨hbwf, hpn, hinv⟩ := hwf
  have hlencap := len_le_cap r.b hbwf
  unfold io_reader_npeek
  rw [if_neg (by omega : ¬ n = 0), if_neg (by omega : ¬ n > r.b.cap)]
  simp only []
  rw [if_pos (by omega : n - min n (io_buffer_len r.b) > 0)]
  simp only [io_read]
  have htake : bs.take (n - min n (io_buffer_len r.b)) = bs :=
    List.take_of_length_le (by omega)
  rw [htake]
  obtain ⟨hap1, hapwf, hapst, hapcap, haplen⟩ :=
    io_buffer_append_wf r.b bs bs.length hbwf (by omega)
  have hcont := logicalTake_append r.b bs bs.length hbwf (by omega)
    (Nat.le_refl _)
  rw [List.take_length] at hcont
  rw [if_neg (by rw [hap1]; simp)]
  have hbuf' : io_reader_buffered
      { r with b := (io_buffer_append r.b bs bs.length).2,
               nread := r.nread + bs.length } =
      io_buffer_len r.b + bs.length := by
    unfold io_reader_buffered
    show r.nread + bs.length - r.pos = io_buffer_len r.b + bs.length
    omega
  rw [hbuf',
    (show min (io_buffer_len r.b + bs.length) n =
      io_buffer_len r.b + bs.length from by omega)]
  have hspit := io_buffer_nspit_spec (io_buffer_append r.b bs bs.length).2
    (io_buffer_len r.b + bs.length) hapwf (by rw [haplen])
  rw [hspit, if_neg (by simp),
    if_pos (by omega : bs.length < n - min n (io_buffer_len r.b))]
  exact ⟨rfl, hcont, hbuf', rfl, rfl⟩

/-! ### Claim theorems -/

/-- Claim C1: for every reader created by `io_reader_init` and evolved
through any sequence of peek, consume, read, and discard operations (the
source yielding arbitrary byte counts on each read), `pos ≤ nread` holds,
`nread - pos` equals the bound buffer's logical length, and
`io_reader_buffered` returns exactly the buffer's length. -/
theorem spec_c1_reader_invariant (cap : Nat) (buf0 : List Nat)
    (hbuf : buf0.length = cap + 1) (ops : List ReaderOp) (src : Source) :
    (runReader (io_reader_init ⟨buf0, 0, 0, cap⟩, src) ops).1.pos ≤
      (runReader (io_reader_init ⟨buf0, 0, 0, cap⟩, src) ops).1.nread ∧
    (runReader (io_reader_init ⟨buf0, 0, 0, cap⟩, src) ops).1.nread -
      (runReader (io_reader_init ⟨buf0, 0, 0, cap⟩, src) ops).1.pos =
      io_buffer_len
        (runReader (io_reader_init ⟨buf0, 0, 0, cap⟩, src) ops).1.b ∧
    io_reader_buffered
      (runReader (io_reader_init ⟨buf0, 0, 0, cap⟩, src) ops).1 =
      io_buffer_len
        (runReader (io_reader_init ⟨buf0, 0, 0, cap⟩, src) ops).1.b := by
  have h0 : readerWF (io_reader_init ⟨buf0, 0, 0, cap⟩) := by
    refine ⟨⟨Nat.zero_le _, Nat.zero_le _, hbuf⟩, Nat.le_refl _, ?_⟩
    show 0 - 0 = io_buffer_len ⟨buf0, 0, 0, cap⟩
    unfold io_buffer_len
    simp
  obtain ⟨hbwf, hpn, hinv⟩ :=
    runReader_inv ops (io_reader_init ⟨buf0, 0, 0, cap⟩, src) h0
  refine ⟨hpn, hinv, ?_⟩
  unfold io_reader_buffered
  exact hinv

/-- Witness for C1 at a concrete capacity, source and operation sequence. -/
theorem spec_c1_reader_invariant_witness :
    ([0, 0, 0] : List Nat).length = 2 + 1 ∧
    (let s := runReader (io_reader_init ⟨[0, 0, 0], 0, 0, 2⟩,
        [SrcResp.bytes [7, 8], SrcResp.bytes [9]])
        [ReaderOp.peek true 2, ReaderOp.consume false 1,
         ReaderOp.readOp true 1, ReaderOp.discard]
     s.1.pos ≤ s.1.nread ∧
     s.1.nread - s.1.pos = io_buffer_len s.1.b ∧
     io_reader_buffered s.1 = io_buffer_len s.1.b) :=
  ⟨rfl, spec_c1_reader_invariant 2 [0, 0, 0] rfl
    [ReaderOp.peek true 2, ReaderOp.consume false 1,
     ReaderOp.readOp true 1, ReaderOp.discard]
    [SrcResp.bytes [7, 8], SrcResp.bytes [9]]⟩

/-- Claim C2: for every well-formed buffer and `n ≤ len()`,
`io_buffer_nspit` succeeds and writes the first `n` logical bytes into
`dest` in logical order (handling the wraparound split).  The embedding of
`io_buffer_nspit` returns no updated buffer because the C function never
stores to the buffer, so the call cannot mutate buffer state. -/
theorem spec_c2_nspit_in_order (b : IO_Buffer) (n : Nat) (hwf : bufWF b)
    (hn : n ≤ io_buffer_len b) :
    io_buffer_nspit b true n = (IO_Err.ok, logicalTake b n) :=
  io_buffer_nspit_spec b n hwf hn

/-- Witness for C2: the capacity-6 buffer (physical size 7) seeded with
`start` at 4 and `end` at 1, holding "ABCD" across the wrap, yields "ABCD"
(byte values 65 66 67 68) from a 4-byte copy. -/
theorem spec_c2_nspit_in_order_witness :
    (bufWF ⟨[68, 0, 0, 0, 65, 66, 67], 4, 1, 6⟩ ∧
     4 ≤ io_buffer_len ⟨[68, 0, 0, 0, 65, 66, 67], 4, 1, 6⟩) ∧
    io_buffer_nspit ⟨[68, 0, 0, 0, 65, 66, 67], 4, 1, 6⟩ true 4 =
      (IO_Err.ok, [65, 66, 67, 68]) :=
  ⟨⟨by decide, by decide⟩,
   (spec_c2_nspit_in_order ⟨[68, 0, 0, 0, 65, 66, 67], 4, 1, 6⟩ 4
     (by decide) (by decide)).trans (by decide)⟩

/-- Claim C3: when the next source response cannot reach a peek of
`n ≤ cap` bytes, `io_reader_npeek` returns `IO_ERR_EOF` while still
delivering everything available (old buffered bytes then the fresh source
bytes), leaves `buffered()` equal to that available count, and `pos` is
never advanced by a peek on any path. -/
theorem spec_c3_peek_partial (r : IO_Reader) (rest : Source)
    (bs : List Nat) (n : Nat) (hwf : readerWF r) (hcap : n ≤ r.b.cap)
    (hshort : io_buffer_len r.b + bs.length < n) :
    ((io_reader_npeek r (SrcResp.bytes bs :: rest) true n).1 =
        IO_Err.eof ∧
     (io_reader_npeek r (SrcResp.bytes bs :: rest) true n).2.1 =
        logicalTake r.b (io_buffer_len r.b) ++ bs ∧
     io_reader_buffered
        (io_reader_npeek r (SrcResp.bytes bs :: rest) true n).2.2.1 =
        io_buffer_len r.b + bs.length) ∧
    (∀ (src : Source) (dp : Bool) (m : Nat),
      (io_reader_npeek r src dp m).2.2.1.pos = r.pos) := by
  obtain ⟨h1, h2, h3, _, _⟩ := io_reader_npeek_eof r rest bs n hwf hcap hshort
  exact ⟨⟨h1, h2, h3⟩, fun src dp m => io_reader_npeek_pos r src dp m⟩

/-- Witness for C3: peeking 6 bytes on an empty capacity-6 reader whose
source yields only 3 bytes. -/
theorem spec_c3_peek_partial_witness :
    (readerWF (io_reader_init ⟨[0, 0, 0, 0, 0, 0, 0], 0, 0, 6⟩) ∧
     6 ≤ (io_reader_init ⟨[0, 0, 0, 0, 0, 0, 0], 0, 0, 6⟩).b.cap ∧
     io_buffer_len (io_reader_init ⟨[0, 0, 0, 0, 0, 0, 0], 0, 0, 6⟩).b +
       ([65, 66, 67] : List Nat).length < 6) ∧
    (let r := io_reader_init ⟨[0, 0, 0, 0, 0, 0, 0], 0, 0, 6⟩
     ((io_reader_npeek r [SrcResp.bytes [65, 66, 67]] true 6).1 =
        IO_Err.eof ∧
      (io_reader_npeek r [SrcResp.bytes [65, 66, 67]] true 6).2.1 =
        logicalTake r.b (io_buffer_len r.b) ++ [65, 66, 67] ∧
      io_reader_buffered
        (io_reader_npeek r [SrcResp.bytes [65, 66, 67]] true 6).2.2.1 =
        io_buffer_len r.b + ([65, 66, 67] : List Nat).length) ∧
     (∀ (src : Source) (dp : Bool) (m : Nat),
       (io_reader_npeek r src dp m).2.2.1.pos = r.pos)) :=
  ⟨⟨by decide, by decide, by decide⟩,
   spec_c3_peek_partial (io_reader_init ⟨[0, 0, 0, 0, 0, 0, 0], 0, 0, 6⟩)
     [] [65, 66, 67] 6 (by decide) (by decide) (by decide)⟩

/-- Claim C4 counterexample: `io_buffer_nspit` checks the destination
pointer before the `n == 0` early return, so `copy_out` with an absent
destination and `n = 0` returns `IO_ERR_INV_PTR`, not success. -/
theorem spec_c4_counterexample :
    (io_buffer_nspit ⟨[0, 0], 0, 0, 1⟩ false 0).1 = IO_Err.inv_ptr ∧
    IO_Err.inv_ptr ≠ IO_Err.ok := by
  exact ⟨rfl, by decide⟩

/-- Claim C4 (amended): `n = 0` is a success with no I/O and no mutation
for peek, read, and append (even with an absent destination or source
pointer, which the early return never dereferences), and for `copy_out`
with a present destination; `copy_out` with an absent destination returns
`IO_ERR_INV_PTR` even when `n = 0`, because the null check comes first. -/
theorem spec_c4_zero_noop (r : IO_Reader) (src : Source) (dp : Bool)
    (b : IO_Buffer) (xs : List Nat) :
    io_reader_npeek r src dp 0 = (IO_Err.ok, [], r, src) ∧
    io_reader_nread r src dp 0 = (IO_Err.ok, [], r, src) ∧
    io_buffer_append b xs 0 = (IO_Err.ok, b) ∧
    io_buffer_nspit b true 0 = (IO_Err.ok, []) ∧
    io_buffer_nspit b false 0 = (IO_Err.inv_ptr, []) :=
  ⟨rfl, rfl, rfl, rfl, rfl⟩

/-- Claim C5: `io_buffer_append` with `n` strictly greater than the
remaining free space `cap - len()` returns `IO_ERR_OOB` and the buffer is
returned byte-for-byte and pointer-for-pointer unchanged. -/
theorem spec_c5_append_oob (b : IO_Buffer) (src : List Nat) (n : Nat)
    (h : b.cap - io_buffer_len b < n) :
    io_buffer_append b src n = (IO_Err.oob, b) :=
  io_buffer_append_oob b src n h

/-- Witness for C5: appending 7 bytes to an empty capacity-6 buffer. -/
theorem spec_c5_append_oob_witness :
    (⟨[0, 0, 0, 0, 0, 0, 0], 0, 0, 6⟩ : IO_Buffer).cap -
      io_buffer_len ⟨[0, 0, 0, 0, 0, 0, 0], 0, 0, 6⟩ < 7 ∧
    io_buffer_append ⟨[0, 0, 0, 0, 0, 0, 0], 0, 0, 6⟩
      [1, 2, 3, 4, 5, 6, 7] 7 =
      (IO_Err.oob, ⟨[0, 0, 0, 0, 0, 0, 0], 0, 0, 6⟩) :=
  ⟨by decide, spec_c5_append_oob ⟨[0, 0, 0, 0, 0, 0, 0], 0, 0, 6⟩
    [1, 2, 3, 4, 5, 6, 7] 7 (by decide)⟩

/-- Claim C6: on an empty well-formed buffer (`start = end_`, at any
physical position, so the writes may wrap), a successful append of `n ≤
cap` bytes followed by `copy_out` of the same `n` returns the appended
bytes unchanged; `copy_out` is non-mutating by construction (the embedding
returns no updated buffer because the C function never stores to it). -/
theorem spec_c6_append_then_copy (b : IO_Buffer) (src : List Nat) (n : Nat)
    (hwf : bufWF b) (hempty : b.start = b.end_) (hlen : src.length = n)
    (hn : n ≤ b.cap) :
    (io_buffer_append b src n).1 = IO_Err.ok ∧
    io_buffer_nspit (io_buffer_append b src n).2 true n =
      (IO_Err.ok, src) := by
  have hl0 : io_buffer_len b = 0 := by
    unfold io_buffer_len
    rw [if_pos (by omega)]
    omega
  obtain ⟨hap1, hapwf, hapst, hapcap, haplen⟩ :=
    io_buffer_append_wf b src n hwf (by omega)
  have hcont := logicalTake_append b src n hwf (by omega) (by omega)
  have htake : src.take n = src := List.take_of_length_le (by omega)
  have hlt0 : logicalTake b 0 = [] := by simp [logicalTake]
  rw [hl0, Nat.zero_add, hlt0, htake, List.nil_append] at hcont
  refine ⟨hap1, ?_⟩
  rw [io_buffer_nspit_spec (io_buffer_append b src n).2 n hapwf
    (by rw [haplen]; omega), hcont]

/-- Witness for C6: an empty capacity-6 buffer positioned at
`start = end_ = 5`, so the 4-byte append wraps past the physical end. -/
theorem spec_c6_append_then_copy_witness :
    (bufWF ⟨[0, 0, 0, 0, 0, 0, 0], 5, 5, 6⟩ ∧
     (⟨[0, 0, 0, 0, 0, 0, 0], 5, 5, 6⟩ : IO_Buffer).start =
       (⟨[0, 0, 0, 0, 0, 0, 0], 5, 5, 6⟩ : IO_Buffer).end_ ∧
     ([1, 2, 3, 4] : List Nat).length = 4 ∧ 4 ≤ 6) ∧
    ((io_buffer_append ⟨[0, 0, 0, 0, 0, 0, 0], 5, 5, 6⟩ [1, 2, 3, 4] 4).1 =
       IO_Err.ok ∧
     io_buffer_nspit
       (io_buffer_append ⟨[0, 0, 0, 0, 0, 0, 0], 5, 5, 6⟩ [1, 2, 3, 4] 4).2
       true 4 = (IO_Err.ok, [1, 2, 3, 4])) :=
  ⟨⟨by decide, by decide, by decide, by decide⟩,
   spec_c6_append_then_copy ⟨[0, 0, 0, 0, 0, 0, 0], 5, 5, 6⟩ [1, 2, 3, 4] 4
     (by decide) (by decide) (by decide) (by decide)⟩

/-- Claim C7: `io_reader_npeek` with `n` strictly greater than the
buffer's nominal capacity returns `IO_ERR_OOB` with no source I/O and no
state change: the reader and the source are returned untouched. -/
theorem spec_c7_peek_oob (r : IO_Reader) (src : Source) (dp : Bool)
    (n : Nat) (h : r.b.cap < n) :
    io_reader_npeek r src dp n = (IO_Err.oob, [], r, src) := by
  unfold io_reader_npeek
  rw [if_neg (by omega), if_pos (by omega)]

/-- Witness for C7: peeking 3 bytes on a capacity-2 reader. -/
theorem spec_c7_peek_oob_witness :
    (io_reader_init ⟨[0, 0, 0], 0, 0, 2⟩).b.cap < 3 ∧
    io_reader_npeek (io_reader_init ⟨[0, 0, 0], 0, 0, 2⟩)
      [SrcResp.bytes [1, 2, 3]] true 3 =
      (IO_Err.oob, [], io_reader_init ⟨[0, 0, 0], 0, 0, 2⟩,
        [SrcResp.bytes [1, 2, 3]]) :=
  ⟨by decide, spec_c7_peek_oob (io_reader_init ⟨[0, 0, 0], 0, 0, 2⟩)
    [SrcResp.bytes [1, 2, 3]] true 3 (by decide)⟩

/-- Claim C8: on a well-formed reader, `io_reader_nconsume` always returns
success, copies `min n buffered` logical bytes into `dest` when it is
present (and nothing when it is absent, acting as a pure skip), advances
the buffer's `start` (modulo the physical size) and `pos` by exactly that
amount, and lowers `buffered()` by the same amount.  The embedding of
`io_reader_nconsume` takes no source argument because the C function
performs no I/O. -/
theorem spec_c8_consume (r : IO_Reader) (dp : Bool) (n : Nat)
    (hwf : readerWF r) :
    (io_reader_nconsume r dp n).1 = IO_Err.ok ∧
    (io_reader_nconsume r dp n).2.1 =
      (if dp then logicalTake r.b (min n (io_buffer_len r.b)) else []) ∧
    (io_reader_nconsume r dp n).2.2.pos =
      r.pos + min n (io_buffer_len r.b) ∧
    (io_reader_nconsume r dp n).2.2.b.start =
      (r.b.start + min n (io_buffer_len r.b)) % (r.b.cap + 1) ∧
    io_reader_buffered (io_reader_nconsume r dp n).2.2 =
      io_reader_buffered r - min n (io_buffer_len r.b) := by
  obtain ⟨hc1, hc2, hc3, hc4, hc5, hc6, hc7, hc8, hcwf⟩ :=
    io_reader_nconsume_spec r dp n hwf
  obtain ⟨hbwf, hpn, hinv⟩ := hwf
  refine ⟨hc1, hc2, hc3, hc5, ?_⟩
  unfold io_reader_buffered
  rw [hc4, hc3]
  omega

/-- Witness for C8: a 5-byte-buffered reader consumed for 3 bytes with an
absent destination: `pos` advances by 3 and `buffered()` drops to 2 with
no destination writes. -/
theorem spec_c8_consume_witness :
    readerWF ⟨⟨[65, 66, 49, 50, 51, 0, 0], 0, 5, 6⟩, 5, 0⟩ ∧
    ((io_reader_nconsume ⟨⟨[65, 66, 49, 50, 51, 0, 0], 0, 5, 6⟩, 5, 0⟩
        false 3).1 = IO_Err.ok ∧
     (io_reader_nconsume ⟨⟨[65, 66, 49, 50, 51, 0, 0], 0, 5, 6⟩, 5, 0⟩
        false 3).2.1 = (if false then logicalTake
          (⟨⟨[65, 66, 49, 50, 51, 0, 0], 0, 5, 6⟩, 5, 0⟩ : IO_Reader).b
          (min 3 (io_buffer_len ⟨[65, 66, 49, 50, 51, 0, 0], 0, 5, 6⟩))
          else []) ∧
     (io_reader_nconsume ⟨⟨[65, 66, 49, 50, 51, 0, 0], 0, 5, 6⟩, 5, 0⟩
        false 3).2.2.pos =
       0 + min 3 (io_buffer_len ⟨[65, 66, 49, 50, 51, 0, 0], 0, 5, 6⟩) ∧
     (io_reader_nconsume ⟨⟨[65, 66, 49, 50, 51, 0, 0], 0, 5, 6⟩, 5, 0⟩
        false 3).2.2.b.start =
       (0 + min 3 (io_buffer_len ⟨[65, 66, 49, 50, 51, 0, 0], 0, 5, 6⟩)) %
         (6 + 1) ∧
     io_reader_buffered
       (io_reader_nconsume ⟨⟨[65, 66, 49, 50, 51, 0, 0], 0, 5, 6⟩, 5, 0⟩
         false 3).2.2 =
       io_reader_buffered ⟨⟨[65, 66, 49, 50, 51, 0, 0], 0, 5, 6⟩, 5, 0⟩ -
         min 3 (io_buffer_len ⟨[65, 66, 49, 50, 51, 0, 0], 0, 5, 6⟩)) ∧
    io_reader_buffered
      (io_reader_nconsume ⟨⟨[65, 66, 49, 50, 51, 0, 0], 0, 5, 6⟩, 5, 0⟩
        false 3).2.2 = 2 :=
  ⟨by decide,
   spec_c8_consume ⟨⟨[65, 66, 49, 50, 51, 0, 0], 0, 5, 6⟩, 5, 0⟩ false 3
     (by decide), by decide⟩

/-- Every buffer operation preserves the `cap` field. -/
theorem applyBufOp_cap (b : IO_Buffer) (op : BufOp) (hwf : bufWF b) :
    (applyBufOp b op).cap = b.cap := by
  obtain ⟨hs, he, hl⟩ := hwf
  cases op with
  | append src n =>
    by_cases hn : n ≤ b.cap - io_buffer_len b
    · exact (io_buffer_append_wf b src n ⟨hs, he, hl⟩ hn).2.2.2.1
    · show (io_buffer_append b src n).2.cap = b.cap
      rw [io_buffer_append_oob b src n (by omega)]
  | advance n => exact (io_buffer_nadvance_spec b n ⟨hs, he, hl⟩).2.2.2.1
  | reset => rfl
  | copyOut dp n => rfl

/-- Any sequence of buffer operations preserves the `cap` field. -/
theorem runBuf_cap (ops : List BufOp) (b : IO_Buffer) (hwf : bufWF b) :
    (runBuf b ops).cap = b.cap := by
  induction ops generalizing b with
  | nil => rfl
  | cons op rest ih =>
    have h1 : runBuf b (op :: rest) = runBuf (applyBufOp b op) rest := rfl
    rw [h1, ih (applyBufOp b op) (applyBufOp_wf b op hwf),
      applyBufOp_cap b op hwf]

/-- Claim C9: for every buffer state reachable from `io_buffer_init`
through any sequence of append, advance, reset, and copy_out operations,
the logical length `io_buffer_len` stays within `[0, cap]` (despite the
physical size being `cap + 1`). -/
theorem spec_c9_len_bounded (cap : Nat) (buf0 : List Nat)
    (hbuf : buf0.length = cap + 1) (ops : List BufOp) :
    0 ≤ io_buffer_len (runBuf ⟨buf0, 0, 0, cap⟩ ops) ∧
    io_buffer_len (runBuf ⟨buf0, 0, 0, cap⟩ ops) ≤ cap := by
  have hwf0 : bufWF ⟨buf0, 0, 0, cap⟩ :=
    ⟨Nat.zero_le _, Nat.zero_le _, hbuf⟩
  have hwf := runBuf_wf ops ⟨buf0, 0, 0, cap⟩ hwf0
  have hcap := runBuf_cap ops ⟨buf0, 0, 0, cap⟩ hwf0
  dsimp only at hcap
  have hle := len_le_cap (runBuf ⟨buf0, 0, 0, cap⟩ ops) hwf
  exact ⟨Nat.zero_le _, by omega⟩

/-- Witness for C9 at a concrete capacity and operation sequence that
appends across the wrap, advances, resets and copies out. -/
theorem spec_c9_len_bounded_witness :
    ([0, 0, 0, 0] : List Nat).length = 3 + 1 ∧
    (0 ≤ io_buffer_len (runBuf ⟨[0, 0, 0, 0], 0, 0, 3⟩
        [BufOp.append [1, 2, 3] 3, BufOp.advance 2,
         BufOp.append [4, 5] 2, BufOp.copyOut true 3, BufOp.reset]) ∧
     io_buffer_len (runBuf ⟨[0, 0, 0, 0], 0, 0, 3⟩
        [BufOp.append [1, 2, 3] 3, BufOp.advance 2,
         BufOp.append [4, 5] 2, BufOp.copyOut true 3, BufOp.reset]) ≤ 3) :=
  ⟨rfl, spec_c9_len_bounded 3 [0, 0, 0, 0] rfl
    [BufOp.append [1, 2, 3] 3, BufOp.advance 2,
     BufOp.append [4, 5] 2, BufOp.copyOut true 3, BufOp.reset]⟩

/-- Claim C10: `io_reader_nconsume` with an absent destination and
`n = 0` — a combination the spec leaves unspecified — returns success and
leaves the reader completely unchanged (`pos`, `nread`, and the buffer's
`start`, `end_`, contents and `cap` all identical), for any reader whose
`start` offset lies inside the physical region. -/
theorem spec_c10_consume_null_zero (r : IO_Reader)
    (h : r.b.start ≤ r.b.cap) :
    io_reader_nconsume r false 0 = (IO_Err.ok, [], r) := by
  unfold io_reader_nconsume
  rw [if_neg (by simp)]
  simp only []
  rw [(show min 0 (io_buffer_len r.b) = 0 from by omega)]
  rw [if_neg (by simp)]
  have hb : (io_buffer_nadvance r.b 0).2 = r.b := by
    unfold io_buffer_nadvance
    simp only []
    rw [if_neg (by omega), Nat.add_zero,
      Nat.mod_eq_of_lt (by unfold _io_buffer_size; omega)]
  rw [hb]
  rfl

/-- Witness for C10: a concrete 2-byte-buffered reader. -/
theorem spec_c10_consume_null_zero_witness :
    (⟨⟨[9, 8, 7], 1, 0, 2⟩, 2, 0⟩ : IO_Reader).b.start ≤
      (⟨⟨[9, 8, 7], 1, 0, 2⟩, 2, 0⟩ : IO_Reader).b.cap ∧
    io_reader_nconsume ⟨⟨[9, 8, 7], 1, 0, 2⟩, 2, 0⟩ false 0 =
      (IO_Err.ok, [], ⟨⟨[9, 8, 7], 1, 0, 2⟩, 2, 0⟩) :=
  ⟨by decide, spec_c10_consume_null_zero ⟨⟨[9, 8, 7], 1, 0, 2⟩, 2, 0⟩
    (by decide)⟩
